import Mathlib

/-!
# Verification of the student-performance analysis script

Shallow embedding of the statistics core of `analyze_student_performance.py`:
the quantile engine, box statistics, Pearson correlation, the grouped
aggregator and the box-plot glyph emission.  Python floats are modelled as
exact rationals; `math.sqrt` is modelled as the real square root, so `pearson`
lands in `ℝ`.
-/

namespace StudentAnalysis

/-- The interpolation rank `(len(sorted_values) - 1) * q` computed at the top
of `quantile` (line 32 of the source). -/
def rank (l : List ℚ) (q : ℚ) : ℚ :=
  ((l.length : ℚ) - 1) * q

/-- Embedding of `quantile(sorted_values, q)` (source lines 31–37).
`lower = math.floor(index)`, `upper = math.ceil(index)`; when they agree the
element at `int(index)` is returned (for the nonnegative ranks arising from
`q ∈ [0,1]`, `int` truncation coincides with `floor`), otherwise the linear
interpolation between the two bracketing elements.  Python's raising indexing
is modelled by `getD _ 0`; all claims keep the indices in range. -/
def quantile (sorted_values : List ℚ) (q : ℚ) : ℚ :=
  if ⌊rank sorted_values q⌋ = ⌈rank sorted_values q⌉ then
    sorted_values.getD (⌊rank sorted_values q⌋).toNat 0
  else
    sorted_values.getD (⌊rank sorted_values q⌋).toNat 0 +
      (sorted_values.getD (⌈rank sorted_values q⌉).toNat 0 -
        sorted_values.getD (⌊rank sorted_values q⌋).toNat 0) *
        (rank sorted_values q - (⌊rank sorted_values q⌋ : ℚ))

/-- The five-number summary returned by `box_stats` (source lines 40–48). -/
structure BoxStats where
  min : ℚ
  q1 : ℚ
  median : ℚ
  q3 : ℚ
  max : ℚ
deriving Repr, DecidableEq

/-- The non-mutating Python builtin `sorted`, modelled by insertion sort. -/
def sortList (l : List ℚ) : List ℚ :=
  l.insertionSort (· ≤ ·)

/-- Embedding of `box_stats(values)` (source lines 40–48): sort a copy, then
read `sorted_values[0]`, the three interior quantiles, and
`sorted_values[-1]`. -/
def box_stats (values : List ℚ) : BoxStats :=
  let sorted_values := sortList values
  { min := sorted_values.getD 0 0
    q1 := quantile sorted_values (1/4)
    median := quantile sorted_values (1/2)
    q3 := quantile sorted_values (3/4)
    max := sorted_values.getD (sorted_values.length - 1) 0 }

/-- Embedding of `statistics.mean` on a nonempty list: `sum / len`.  (On the
empty list Python raises; the fallible call sites use `statisticsMean`
below, the infallible ones are guarded by nonemptiness hypotheses.) -/
def meanQ (l : List ℚ) : ℚ :=
  l.sum / (l.length : ℚ)

/-- The numerator of `pearson` (source line 54):
`sum((a - mean_x) * (b - mean_y) for a, b in zip(x, y))`. -/
def pearsonNum (x y : List ℚ) : ℚ :=
  ((x.zip y).map (fun p => (p.1 - meanQ x) * (p.2 - meanQ y))).sum

/-- The radicand of a `pearson` denominator (source lines 55–56):
`sum((a - mean) ** 2 for a in l)`. -/
def sqDevSum (l : List ℚ) : ℚ :=
  (l.map (fun a => (a - meanQ l) ^ 2)).sum

open Classical in
/-- Embedding of `pearson(x, y)` (source lines 51–59).  `math.sqrt` is the
real square root, so the result lives in `ℝ`; the zero-denominator test and
the `0.0` fallback are the source's lines 57–58. -/
noncomputable def pearson (x y : List ℚ) : ℝ :=
  let mean_x := meanQ x
  let mean_y := meanQ y
  let numerator : ℚ := ((x.zip y).map (fun p => (p.1 - mean_x) * (p.2 - mean_y))).sum
  let denominator_x : ℝ := Real.sqrt (((x.map (fun a => (a - mean_x) ^ 2)).sum : ℚ) : ℝ)
  let denominator_y : ℝ := Real.sqrt (((y.map (fun b => (b - mean_y) ^ 2)).sum : ℚ) : ℝ)
  if denominator_x = 0 ∨ denominator_y = 0 then 0
  else (numerator : ℝ) / (denominator_x * denominator_y)

/-- One student row: `Student_ID`, `Gender`, `Attendance` and the four
subject scores, as built by `load_data` (source lines 15–28). -/
structure Record where
  student_id : String
  gender : String
  attendance : ℚ
  math : ℚ
  science : ℚ
  english : ℚ
  history : ℚ
deriving Repr, DecidableEq

/-- The fixed subject list `SUBJECT_COLUMNS` (source line 12). -/
def SUBJECT_COLUMNS : List String := ["Math", "Science", "English", "History"]

/-- The field list of the correlation heatmap:
`fields = ["Attendance", *SUBJECT_COLUMNS]` (source line 138). -/
def heatmapFields : List String := "Attendance" :: SUBJECT_COLUMNS

/-- Dictionary access `float(r[f])` on a loaded row, for the five numeric
column names used by the plots. -/
def fieldValue (r : Record) (f : String) : ℚ :=
  if f = "Attendance" then r.attendance
  else if f = "Math" then r.math
  else if f = "Science" then r.science
  else if f = "English" then r.english
  else if f = "History" then r.history
  else 0

/-- One entry of the correlation matrix built by `plot_correlation_heatmap`
(source lines 139–142):
`pearson([float(r[a]) for r in rows], [float(r[b]) for r in rows])`. -/
noncomputable def corrMatrixEntry (rows : List Record) (a b : String) : ℝ :=
  pearson (rows.map (fun r => fieldValue r a)) (rows.map (fun r => fieldValue r b))

/-- Two concrete demo rows (from the spec's end-to-end scenario). -/
def demoRows : List Record :=
  [⟨"S1", "Female", 95, 90, 80, 70, 60⟩, ⟨"S2", "Male", 85, 70, 60, 50, 40⟩]

/-- The fixed group labels `genders = ["Female", "Male"]` of
`plot_subject_wise_comparison` (source line 171). -/
def genders : List String := ["Female", "Male"]

/-- The row comprehension `[r for r in rows if r["Gender"] == gender]`
underlying the grouped mean (source line 174). -/
def groupRows (rows : List Record) (g : String) : List Record :=
  rows.filter (fun r => r.gender == g)

/-- The grouped mean `mean([float(r[subject]) for r in rows if
r["Gender"] == gender])` (source line 174), on a nonempty group. -/
def groupMean (rows : List Record) (g s : String) : ℚ :=
  meanQ ((groupRows rows g).map (fun r => fieldValue r s))

/-- The three demo rows of the spec's end-to-end scenario. -/
def demoRows3 : List Record :=
  [⟨"S1", "Female", 95, 90, 80, 70, 60⟩, ⟨"S2", "Male", 85, 70, 60, 50, 40⟩,
   ⟨"S3", "Female", 90, 80, 70, 60, 50⟩]

/-- The library `statistics.mean`, which raises `StatisticsError` on an empty
sequence, modelled as an `Option`: `none` is the raised error. -/
def statisticsMean (l : List ℚ) : Option ℚ :=
  if l = [] then none else some (meanQ l)

/-- Sequential evaluation of a comprehension whose elements may raise:
stops at the first `none`, as Python stops at the first exception. -/
def optionMapList {α β : Type} (f : α → Option β) : List α → Option (List β)
  | [] => some []
  | a :: l =>
      match f a with
      | none => none
      | some b => (optionMapList f l).map (fun t => b :: t)

/-- The `averages` dict comprehension of `plot_subject_wise_comparison`
(source lines 172–178), with the fallible `mean` threaded through: the
computation is `none` exactly when some `mean` call raised. -/
def averagesE (rows : List Record) : Option (List (String × List (String × ℚ))) :=
  optionMapList (fun gender =>
    (optionMapList (fun subject =>
      (statisticsMean ((groupRows rows gender).map
        (fun r => fieldValue r subject))).map (fun m => (subject, m)))
      SUBJECT_COLUMNS).map (fun l => (gender, l))) genders

/-- Geometric content of the SVG primitives emitted by `plot_boxplots`:
line segments (with their stroke width), filled rectangles, and text
labels.  Presentation-only attributes (stroke colour, font) are constant in
the glyph and omitted. -/
inductive SVGElem where
  | line (x1 y1 x2 y2 : ℚ) (strokeWidth : ℚ)
  | rect (x y w h : ℚ) (fill : String)
  | text (x y : ℚ) (content : String)
deriving Repr, DecidableEq

/-- The y-axis scaling closure of `plot_boxplots` (source lines 82–83):
`margin_top + (y_max - v) / (y_max - y_min) * plot_height` with
`margin_top = 60`, `y_min, y_max = 30, 100`, `plot_height = 520 - 70 - 60`. -/
def y_scale (v : ℚ) : ℚ :=
  60 + (100 - v) / (100 - 30) * (520 - 70 - 60)

/-- The seven primitives `plot_boxplots` appends for one subject's box glyph
(source lines 112–132), in emission order: upper whisker, lower whisker, box
rectangle (`box_width = 80`, height floored at 1), median line, max cap,
min cap, subject label at `margin_top + plot_height + 30`. -/
def boxGlyph (stats : BoxStats) (x_center : ℚ) (color subject : String) :
    List SVGElem :=
  [SVGElem.line x_center (y_scale stats.max) x_center (y_scale stats.q3) 1,
   SVGElem.line x_center (y_scale stats.q1) x_center (y_scale stats.min) 1,
   SVGElem.rect (x_center - 80/2) (y_scale stats.q3) 80
     (max 1 (y_scale stats.q1 - y_scale stats.q3)) color,
   SVGElem.line (x_center - 80/2) (y_scale stats.median)
     (x_center + 80/2) (y_scale stats.median) 2,
   SVGElem.line (x_center - 20) (y_scale stats.max)
     (x_center + 20) (y_scale stats.max) 1,
   SVGElem.line (x_center - 20) (y_scale stats.min)
     (x_center + 20) (y_scale stats.min) 1,
   SVGElem.text x_center (60 + (520 - 70 - 60) + 30) subject]

/-- Python's builtin `sorted(values)` on a heap of caller-owned lists: it
reads the argument cell and allocates a fresh cell holding the sorted copy,
returning the new heap and the fresh reference.  (In-place `list.sort` would
instead overwrite the argument cell.) -/
def sortedAlloc (heap : List (List ℚ)) (r : ℕ) : List (List ℚ) × ℕ :=
  (heap ++ [sortList (heap.getD r [])], heap.length)

/-- The function `box_stats` acting on a caller-owned list through the heap:
line 41 of
the source binds `sorted_values = sorted(values)` (a fresh cell), and all
further reads go through `sorted_values`. -/
def box_statsH (heap : List (List ℚ)) (r : ℕ) : List (List ℚ) × BoxStats :=
  let alloc := sortedAlloc heap r
  let sorted_values := alloc.1.getD alloc.2 []
  (alloc.1,
   { min := sorted_values.getD 0 0
     q1 := quantile sorted_values (1/4)
     median := quantile sorted_values (1/2)
     q3 := quantile sorted_values (3/4)
     max := sorted_values.getD (sorted_values.length - 1) 0 })

section QuantileLemmas

variable {l : List ℚ} {q : ℚ}

lemma rank_nonneg (hne : l ≠ []) (h0 : 0 ≤ q) : 0 ≤ rank l q := by
  have hlen : 1 ≤ l.length := List.length_pos.mpr hne
  have : (1 : ℚ) ≤ (l.length : ℚ) := by exact_mod_cast hlen
  exact mul_nonneg (by linarith) h0

lemma rank_le (hne : l ≠ []) (h1 : q ≤ 1) (h0 : 0 ≤ q) :
    rank l q ≤ (l.length : ℚ) - 1 := by
  have hlen : 1 ≤ l.length := List.length_pos.mpr hne
  have hc : (1 : ℚ) ≤ (l.length : ℚ) := by exact_mod_cast hlen
  calc rank l q ≤ ((l.length : ℚ) - 1) * 1 := by
        exact mul_le_mul_of_nonneg_left h1 (by linarith)
    _ = (l.length : ℚ) - 1 := by ring

lemma floor_rank_nonneg (hne : l ≠ []) (h0 : 0 ≤ q) : 0 ≤ ⌊rank l q⌋ :=
  Int.floor_nonneg.mpr (rank_nonneg hne h0)

lemma ceil_rank_lt_length (hne : l ≠ []) (h0 : 0 ≤ q) (h1 : q ≤ 1) :
    (⌈rank l q⌉).toNat < l.length := by
  have hlen : 1 ≤ l.length := List.length_pos.mpr hne
  have hle : ⌈rank l q⌉ ≤ (l.length : ℤ) - 1 := by
    rw [Int.ceil_le]
    push_cast
    exact rank_le hne h1 h0
  have : (⌈rank l q⌉).toNat ≤ ((l.length : ℤ) - 1).toNat := Int.toNat_le_toNat hle
  omega

lemma floor_le_ceil_rank : ⌊rank l q⌋ ≤ ⌈rank l q⌉ := Int.floor_le_ceil _

lemma floor_rank_lt_length (hne : l ≠ []) (h0 : 0 ≤ q) (h1 : q ≤ 1) :
    (⌊rank l q⌋).toNat < l.length := by
  have h := ceil_rank_lt_length hne h0 h1
  have := Int.toNat_le_toNat (floor_le_ceil_rank (l := l) (q := q))
  omega

lemma quantile_of_int (h : ⌊rank l q⌋ = ⌈rank l q⌉) :
    quantile l q = l.getD (⌊rank l q⌋).toNat 0 := by
  rw [quantile, if_pos h]

lemma quantile_of_not_int (h : ⌊rank l q⌋ ≠ ⌈rank l q⌉) :
    quantile l q = l.getD (⌊rank l q⌋).toNat 0 +
      (l.getD (⌈rank l q⌉).toNat 0 - l.getD (⌊rank l q⌋).toNat 0) *
        (rank l q - (⌊rank l q⌋ : ℚ)) := by
  rw [quantile, if_neg h]

/-- In a weakly sorted list, `getD`-indexing is monotone in the index. -/
lemma sorted_getD_mono (hs : l.Sorted (· ≤ ·)) {i j : ℕ} (hij : i ≤ j)
    (hj : j < l.length) : l.getD i 0 ≤ l.getD j 0 := by
  have hi : i < l.length := lt_of_le_of_lt hij hj
  rw [l.getD_eq_getElem 0 hi, l.getD_eq_getElem 0 hj]
  exact hs.rel_get_of_le (a := ⟨i, hi⟩) (b := ⟨j, hj⟩) hij

lemma quantile_zero (hne : l ≠ []) : quantile l 0 = l.getD 0 0 := by
  have h : rank l 0 = 0 := by simp [rank]
  have hf : ⌊rank l 0⌋ = ⌈rank l 0⌉ := by rw [h]; simp
  rw [quantile_of_int hf, h]
  simp

lemma quantile_one (hne : l ≠ []) : quantile l 1 = l.getD (l.length - 1) 0 := by
  have hlen : 1 ≤ l.length := List.length_pos.mpr hne
  have h : rank l 1 = ((l.length : ℤ) - 1 : ℤ) := by
    rw [rank]; push_cast; ring
  have hf : ⌊rank l 1⌋ = ((l.length : ℤ) - 1) := by rw [h, Int.floor_intCast]
  have hc : ⌈rank l 1⌉ = ((l.length : ℤ) - 1) := by rw [h, Int.ceil_intCast]
  rw [quantile_of_int (by rw [hf, hc]), hf]
  congr 1
  omega

/-- The quantile value lies between the two bracketing sorted elements. -/
lemma quantile_bounds (hne : l ≠ []) (hs : l.Sorted (· ≤ ·)) (h0 : 0 ≤ q)
    (h1 : q ≤ 1) :
    l.getD (⌊rank l q⌋).toNat 0 ≤ quantile l q ∧
      quantile l q ≤ l.getD (⌈rank l q⌉).toNat 0 := by
  by_cases h : ⌊rank l q⌋ = ⌈rank l q⌉
  · rw [quantile_of_int h]
    exact ⟨le_refl _, by rw [h]⟩
  · rw [quantile_of_not_int h]
    have hab : l.getD (⌊rank l q⌋).toNat 0 ≤ l.getD (⌈rank l q⌉).toNat 0 :=
      sorted_getD_mono hs (Int.toNat_le_toNat floor_le_ceil_rank)
        (ceil_rank_lt_length hne h0 h1)
    have hf0 : 0 ≤ rank l q - (⌊rank l q⌋ : ℚ) := by
      have := Int.floor_le (rank l q); linarith
    have hf1 : rank l q - (⌊rank l q⌋ : ℚ) ≤ 1 := by
      have := Int.lt_floor_add_one (rank l q); linarith
    constructor
    · nlinarith [hab, hf0]
    · nlinarith [hab, hf0, hf1]

/-- On a sorted list, `quantile` is monotone in the quantile fraction. -/
lemma quantile_mono {p : ℚ} (hne : l ≠ []) (hs : l.Sorted (· ≤ ·))
    (hp0 : 0 ≤ p) (hpq : p ≤ q) (hq1 : q ≤ 1) : quantile l p ≤ quantile l q := by
  have hq0 : 0 ≤ q := le_trans hp0 hpq
  have hp1 : p ≤ 1 := le_trans hpq hq1
  have hlen : 1 ≤ l.length := List.length_pos.mpr hne
  have hrank : rank l p ≤ rank l q := by
    have hc : (1 : ℚ) ≤ (l.length : ℚ) := by exact_mod_cast hlen
    exact mul_le_mul_of_nonneg_left hpq (by linarith)
  have hbp := quantile_bounds hne hs hp0 hp1
  have hbq := quantile_bounds hne hs hq0 hq1
  by_cases hcase : ⌈rank l p⌉ ≤ ⌊rank l q⌋
  · calc quantile l p ≤ l.getD (⌈rank l p⌉).toNat 0 := hbp.2
      _ ≤ l.getD (⌊rank l q⌋).toNat 0 :=
          sorted_getD_mono hs (Int.toNat_le_toNat hcase)
            (floor_rank_lt_length hne hq0 hq1)
      _ ≤ quantile l q := hbq.1
  · push_neg at hcase
    have hfm : ⌊rank l p⌋ ≤ ⌊rank l q⌋ := Int.floor_le_floor hrank
    have hcf : ⌈rank l p⌉ ≤ ⌊rank l p⌋ + 1 := Int.ceil_le_floor_add_one _
    have hmfix : ⌊rank l p⌋ = ⌊rank l q⌋ := by omega
    by_cases hip : ⌊rank l p⌋ = ⌈rank l p⌉
    · rw [quantile_of_int hip, hip]
      have : ⌈rank l p⌉ ≤ ⌊rank l q⌋ := by omega
      calc l.getD (⌈rank l p⌉).toNat 0 ≤ l.getD (⌊rank l q⌋).toNat 0 :=
            sorted_getD_mono hs (Int.toNat_le_toNat this)
              (floor_rank_lt_length hne hq0 hq1)
        _ ≤ quantile l q := hbq.1
    · have hiq : ⌊rank l q⌋ ≠ ⌈rank l q⌉ := by
        intro hqint
        have hqeq : rank l q = (⌊rank l q⌋ : ℚ) := by
          have h1' := Int.floor_le (rank l q)
          have h2' := Int.le_ceil (rank l q)
          rw [← hqint] at h2'
          linarith
        have hple : rank l p ≤ (⌊rank l p⌋ : ℚ) := by
          rw [hmfix]; rw [hqeq] at hrank; exact hrank
        have hpeq : rank l p = (⌊rank l p⌋ : ℚ) :=
          le_antisymm hple (Int.floor_le _)
        apply hip
        rw [hpeq, Int.floor_intCast, Int.ceil_intCast]
      have hcp : ⌈rank l p⌉ = ⌊rank l p⌋ + 1 := by
        have := floor_le_ceil_rank (l := l) (q := p); omega
      have hcq : ⌈rank l q⌉ = ⌊rank l q⌋ + 1 := by
        have := floor_le_ceil_rank (l := l) (q := q)
        have := Int.ceil_le_floor_add_one (rank l q); omega
      rw [quantile_of_not_int hip, quantile_of_not_int hiq, hmfix, hcp, hcq,
        hmfix]
      have hab : l.getD (⌊rank l q⌋).toNat 0 ≤ l.getD (⌊rank l q⌋ + 1).toNat 0 := by
        apply sorted_getD_mono hs (Int.toNat_le_toNat (by omega))
        rw [← hcq]; exact ceil_rank_lt_length hne hq0 hq1
      have hfrac : rank l p - (⌊rank l q⌋ : ℚ) ≤ rank l q - (⌊rank l q⌋ : ℚ) := by
        linarith
      nlinarith [hab, hfrac]

end QuantileLemmas

/-- C1: for a sorted ascending nonempty sequence and a quantile fraction
`q ∈ [0,1]`, `quantile` returns the value at rank `(N-1)*q`: when the rank is
an integer it returns that element exactly (in particular `quantile l 0` is
the first and `quantile l 1` the last element), otherwise it returns the
linear interpolation between the two bracketing sorted elements weighted by
the fractional part of the rank, and the result lies between the two
bracketing values inclusive. -/
theorem quantile_correct (l : List ℚ) (q : ℚ) (hne : l ≠ [])
    (hs : l.Sorted (· ≤ ·)) (h0 : 0 ≤ q) (h1 : q ≤ 1) :
    (⌊rank l q⌋ = ⌈rank l q⌉ → quantile l q = l.getD (⌊rank l q⌋).toNat 0) ∧
    quantile l 0 = l.getD 0 0 ∧
    quantile l 1 = l.getD (l.length - 1) 0 ∧
    (⌊rank l q⌋ ≠ ⌈rank l q⌉ →
      quantile l q = l.getD (⌊rank l q⌋).toNat 0 +
        (l.getD (⌈rank l q⌉).toNat 0 - l.getD (⌊rank l q⌋).toNat 0) *
          (rank l q - (⌊rank l q⌋ : ℚ))) ∧
    l.getD (⌊rank l q⌋).toNat 0 ≤ quantile l q ∧
    quantile l q ≤ l.getD (⌈rank l q⌉).toNat 0 := by
  obtain ⟨hlow, hhigh⟩ := quantile_bounds hne hs h0 h1
  exact ⟨quantile_of_int, quantile_zero hne, quantile_one hne,
    quantile_of_not_int, hlow, hhigh⟩

/-- Witness for C1 at the sorted list `[1, 2, 4]` and `q = 1/2`. -/
theorem quantile_correct_witness :
    quantile [(1 : ℚ), 2, 4] (1/2) = 2 ∧ quantile [(1 : ℚ), 2, 4] 0 = 1 ∧
      quantile [(1 : ℚ), 2, 4] 1 = 4 := by
  have hr : rank [(1 : ℚ), 2, 4] (1/2) = 1 := by
    rw [rank]; norm_num
  obtain ⟨hint, h0, h1, -, -, -⟩ :=
    quantile_correct [(1 : ℚ), 2, 4] (1/2) (by decide) (by decide)
      (by norm_num) (by norm_num)
  refine ⟨?_, ?_, ?_⟩
  · rw [hint (by rw [hr]; simp), hr]; simp
  · rw [h0]; rfl
  · rw [h1]; rfl

/-- C2: for every nonempty input, the five fields of `box_stats` satisfy
`min ≤ q1 ≤ median ≤ q3 ≤ max`. -/
theorem box_stats_ordered (values : List ℚ) (hne : values ≠ []) :
    (box_stats values).min ≤ (box_stats values).q1 ∧
      (box_stats values).q1 ≤ (box_stats values).median ∧
      (box_stats values).median ≤ (box_stats values).q3 ∧
      (box_stats values).q3 ≤ (box_stats values).max := by
  have hs : (sortList values).Sorted (· ≤ ·) :=
    List.sorted_insertionSort _ _
  have hlen : (sortList values).length = values.length :=
    (List.perm_insertionSort _ _).length_eq
  have hne' : sortList values ≠ [] := by
    intro h
    apply hne
    rw [← List.length_eq_zero, ← hlen, h, List.length_nil]
  simp only [box_stats]
  refine ⟨?_, ?_, ?_, ?_⟩
  · rw [← quantile_zero hne']
    exact quantile_mono hne' hs le_rfl (by norm_num) (by norm_num)
  · exact quantile_mono hne' hs (by norm_num) (by norm_num) (by norm_num)
  · exact quantile_mono hne' hs (by norm_num) (by norm_num) (by norm_num)
  · rw [← quantile_one hne']
    exact quantile_mono hne' hs (by norm_num) (by norm_num) le_rfl

/-- Witness for C2 at the spec's example column `[90, 70, 80]`. -/
theorem box_stats_ordered_witness :
    (box_stats [(90 : ℚ), 70, 80]).min ≤ (box_stats [(90 : ℚ), 70, 80]).q1 ∧
      (box_stats [(90 : ℚ), 70, 80]).q1 ≤ (box_stats [(90 : ℚ), 70, 80]).median ∧
      (box_stats [(90 : ℚ), 70, 80]).median ≤ (box_stats [(90 : ℚ), 70, 80]).q3 ∧
      (box_stats [(90 : ℚ), 70, 80]).q3 ≤ (box_stats [(90 : ℚ), 70, 80]).max :=
  box_stats_ordered [(90 : ℚ), 70, 80] (by decide)

section PearsonLemmas

lemma sqDevSum_nonneg (l : List ℚ) : 0 ≤ sqDevSum l := by
  apply List.sum_nonneg
  intro a ha
  obtain ⟨b, -, rfl⟩ := List.mem_map.mp ha
  exact sq_nonneg _

/-- The branch condition of `pearson` in terms of the rational radicands. -/
lemma pearson_eq (x y : List ℚ) :
    pearson x y = if sqDevSum x = 0 ∨ sqDevSum y = 0 then 0
      else (pearsonNum x y : ℝ) /
        (Real.sqrt (sqDevSum x) * Real.sqrt (sqDevSum y)) := by
  rw [pearson]
  have hx : Real.sqrt ((sqDevSum x : ℚ) : ℝ) = 0 ↔ sqDevSum x = 0 := by
    rw [Real.sqrt_eq_zero (by exact_mod_cast sqDevSum_nonneg x)]
    exact_mod_cast Iff.rfl
  have hy : Real.sqrt ((sqDevSum y : ℚ) : ℝ) = 0 ↔ sqDevSum y = 0 := by
    rw [Real.sqrt_eq_zero (by exact_mod_cast sqDevSum_nonneg y)]
    exact_mod_cast Iff.rfl
  simp only [sqDevSum, pearsonNum] at hx hy ⊢
  rw [if_congr (or_congr hx hy) rfl rfl]

lemma list_sum_map_getD (f : ℚ → ℚ) (u : List ℚ) :
    (u.map f).sum = ∑ i in Finset.range u.length, f (u.getD i 0) := by
  induction u with
  | nil => simp
  | cons a u ih =>
      rw [List.map_cons, List.sum_cons, List.length_cons, Finset.sum_range_succ']
      simp only [List.getD_cons_succ, List.getD_cons_zero]
      rw [ih]
      ring

lemma zipmul_sum (u v : List ℚ) :
    ((u.zip v).map (fun p => p.1 * p.2)).sum =
      ∑ i in Finset.range (min u.length v.length), u.getD i 0 * v.getD i 0 := by
  induction u generalizing v with
  | nil => simp
  | cons a u ih =>
      cases v with
      | nil => simp
      | cons b v =>
          rw [List.zip_cons_cons, List.map_cons, List.sum_cons,
            List.length_cons, List.length_cons, Nat.succ_min_succ,
            Finset.sum_range_succ']
          simp only [List.getD_cons_succ, List.getD_cons_zero]
          rw [ih]
          ring

/-- Cauchy–Schwarz over the truncating `zip`, with the squares summed over
the full lists. -/
lemma cauchy_schwarz_list (u v : List ℚ) :
    (((u.zip v).map (fun p => p.1 * p.2)).sum) ^ 2 ≤
      (u.map (fun a => a ^ 2)).sum * (v.map (fun a => a ^ 2)).sum := by
  rw [zipmul_sum, list_sum_map_getD, list_sum_map_getD]
  have h1 := Finset.sum_mul_sq_le_sq_mul_sq (Finset.range (min u.length v.length))
    (fun i => u.getD i 0) (fun i => v.getD i 0)
  have h2 : ∑ i in Finset.range (min u.length v.length), (u.getD i 0) ^ 2 ≤
      ∑ i in Finset.range u.length, (u.getD i 0) ^ 2 :=
    Finset.sum_le_sum_of_subset_of_nonneg
      (Finset.range_subset.mpr (min_le_left _ _)) (fun i _ _ => sq_nonneg _)
  have h3 : ∑ i in Finset.range (min u.length v.length), (v.getD i 0) ^ 2 ≤
      ∑ i in Finset.range v.length, (v.getD i 0) ^ 2 :=
    Finset.sum_le_sum_of_subset_of_nonneg
      (Finset.range_subset.mpr (min_le_right _ _)) (fun i _ _ => sq_nonneg _)
  have h4 : 0 ≤ ∑ i in Finset.range (min u.length v.length), (v.getD i 0) ^ 2 :=
    Finset.sum_nonneg (fun i _ => sq_nonneg _)
  have h5 : 0 ≤ ∑ i in Finset.range u.length, (u.getD i 0) ^ 2 :=
    Finset.sum_nonneg (fun i _ => sq_nonneg _)
  calc (∑ i in Finset.range (min u.length v.length), u.getD i 0 * v.getD i 0) ^ 2
      ≤ (∑ i in Finset.range (min u.length v.length), (u.getD i 0) ^ 2) *
        ∑ i in Finset.range (min u.length v.length), (v.getD i 0) ^ 2 := h1
    _ ≤ (∑ i in Finset.range u.length, (u.getD i 0) ^ 2) *
        ∑ i in Finset.range v.length, (v.getD i 0) ^ 2 :=
        mul_le_mul h2 h3 h4 h5

/-- The numerator is the truncating dot product of the deviation lists. -/
lemma pearsonNum_eq_zip_devs (x y : List ℚ) :
    pearsonNum x y =
      (((x.map (fun a => a - meanQ x)).zip (y.map (fun b => b - meanQ y))).map
        (fun p => p.1 * p.2)).sum := by
  rw [pearsonNum, List.zip_map, List.map_map]
  rfl

lemma sqDevSum_eq_map_sq (l : List ℚ) :
    sqDevSum l = ((l.map (fun a => a - meanQ l)).map (fun a => a ^ 2)).sum := by
  rw [sqDevSum, List.map_map]
  rfl

/-- Cauchy–Schwarz for the `pearson` numerator and radicands. -/
lemma pearsonNum_sq_le (x y : List ℚ) :
    (pearsonNum x y) ^ 2 ≤ sqDevSum x * sqDevSum y := by
  rw [pearsonNum_eq_zip_devs, sqDevSum_eq_map_sq x, sqDevSum_eq_map_sq y]
  exact cauchy_schwarz_list _ _

lemma meanQ_of_constant {x : List ℚ} {c : ℚ} (hne : x ≠ [])
    (hc : ∀ a ∈ x, a = c) : meanQ x = c := by
  have hsum : x.sum = x.length • c := List.sum_eq_card_nsmul x c hc
  have hlen : (x.length : ℚ) ≠ 0 := by
    have : x.length ≠ 0 := fun h => hne (List.length_eq_zero.mp h)
    exact_mod_cast this
  rw [meanQ, hsum, nsmul_eq_mul, mul_comm, mul_div_assoc, div_self hlen,
    mul_one]

lemma sqDevSum_of_constant {x : List ℚ} {c : ℚ} (hne : x ≠ [])
    (hc : ∀ a ∈ x, a = c) : sqDevSum x = 0 := by
  rw [sqDevSum]
  apply List.sum_eq_zero
  intro t ht
  obtain ⟨a, ha, rfl⟩ := List.mem_map.mp ht
  rw [hc a ha, meanQ_of_constant hne hc]
  ring

/-- C3: if either sequence has zero variance (in particular when the first is
constant), `pearson` returns exactly `0.0` instead of failing or producing
NaN (the embedding is a total function into `ℝ`). -/
theorem pearson_zero_variance (x y : List ℚ) :
    (sqDevSum x = 0 ∨ sqDevSum y = 0 → pearson x y = 0) ∧
    (∀ c : ℚ, x ≠ [] → (∀ a ∈ x, a = c) → pearson x y = 0) := by
  have hmain : sqDevSum x = 0 ∨ sqDevSum y = 0 → pearson x y = 0 := by
    intro h
    rw [pearson_eq, if_pos h]
  exact ⟨hmain, fun c hne hc => hmain (Or.inl (sqDevSum_of_constant hne hc))⟩

/-- Witness for C3: the constant list `[2, 2]` against `[1, 5]`. -/
theorem pearson_zero_variance_witness :
    pearson [(2 : ℚ), 2] [(1 : ℚ), 5] = 0 :=
  (pearson_zero_variance [(2 : ℚ), 2] [(1 : ℚ), 5]).2 2 (by decide)
    (by decide)

/-- C4: when both sequences have nonzero variance (and lengths are equal and
positive), the value of `pearson` lies within `[-1, 1]`. -/
theorem pearson_bounded (x y : List ℚ) (hne : x ≠ [])
    (hlen : x.length = y.length) (hx : sqDevSum x ≠ 0) (hy : sqDevSum y ≠ 0) :
    -1 ≤ pearson x y ∧ pearson x y ≤ 1 := by
  rw [pearson_eq, if_neg (by push_neg; exact ⟨hx, hy⟩)]
  have hx0 : (0 : ℝ) < (sqDevSum x : ℝ) := by
    exact_mod_cast lt_of_le_of_ne (sqDevSum_nonneg x) (Ne.symm hx)
  have hy0 : (0 : ℝ) < (sqDevSum y : ℝ) := by
    exact_mod_cast lt_of_le_of_ne (sqDevSum_nonneg y) (Ne.symm hy)
  have hD : 0 < Real.sqrt (sqDevSum x) * Real.sqrt (sqDevSum y) :=
    mul_pos (Real.sqrt_pos.mpr hx0) (Real.sqrt_pos.mpr hy0)
  have habs : |(pearsonNum x y : ℝ)| ≤
      Real.sqrt (sqDevSum x) * Real.sqrt (sqDevSum y) := by
    calc |(pearsonNum x y : ℝ)| = Real.sqrt ((pearsonNum x y : ℝ) ^ 2) :=
          (Real.sqrt_sq_eq_abs _).symm
      _ ≤ Real.sqrt ((sqDevSum x : ℝ) * (sqDevSum y : ℝ)) := by
          apply Real.sqrt_le_sqrt
          exact_mod_cast pearsonNum_sq_le x y
      _ = Real.sqrt (sqDevSum x) * Real.sqrt (sqDevSum y) :=
          Real.sqrt_mul hx0.le _
  obtain ⟨hlo, hhi⟩ := abs_le.mp habs
  constructor
  · rw [le_div_iff hD]
    linarith
  · rw [div_le_one hD]
    exact hhi

/-- Witness for C4 at `x = [1, 2]`, `y = [3, 7]`. -/
theorem pearson_bounded_witness :
    -1 ≤ pearson [(1 : ℚ), 2] [(3 : ℚ), 7] ∧
      pearson [(1 : ℚ), 2] [(3 : ℚ), 7] ≤ 1 :=
  pearson_bounded [(1 : ℚ), 2] [(3 : ℚ), 7] (by decide) (by decide)
    (by norm_num [sqDevSum, meanQ]) (by norm_num [sqDevSum, meanQ])

lemma pearsonNum_symm (x y : List ℚ) : pearsonNum x y = pearsonNum y x := by
  rw [pearsonNum, pearsonNum, ← List.zip_swap x y, List.map_map]
  apply congrArg List.sum
  apply List.map_congr_left
  intro p hp
  simp [Prod.swap, mul_comm]

/-- Symmetry of `pearson` in its two arguments. -/
lemma pearson_symm (x y : List ℚ) : pearson x y = pearson y x := by
  rw [pearson_eq, pearson_eq, pearsonNum_symm]
  by_cases h : sqDevSum x = 0 ∨ sqDevSum y = 0
  · rw [if_pos h, if_pos (Or.symm h)]
  · rw [if_neg h, if_neg (fun hc => h (Or.symm hc)), mul_comm]

lemma zip_self_eq_map (x : List ℚ) : x.zip x = x.map (fun a => (a, a)) := by
  induction x with
  | nil => rfl
  | cons a x ih => rw [List.zip_cons_cons, List.map_cons, ih]

lemma pearsonNum_self (x : List ℚ) : pearsonNum x x = sqDevSum x := by
  rw [pearsonNum, sqDevSum, zip_self_eq_map, List.map_map]
  apply congrArg List.sum
  apply List.map_congr_left
  intro a ha
  simp [sq]

lemma list_sum_nonneg_eq_zero {l : List ℚ} (h : ∀ a ∈ l, 0 ≤ a)
    (hs : l.sum = 0) : ∀ a ∈ l, a = 0 := by
  induction l with
  | nil => intro a ha; cases ha
  | cons b l ih =>
      rw [List.sum_cons] at hs
      have hb : 0 ≤ b := h b (List.mem_cons_self _ _)
      have hl : 0 ≤ l.sum :=
        List.sum_nonneg (fun a ha => h a (List.mem_cons_of_mem _ ha))
      have hb0 : b = 0 := by linarith
      have hls : l.sum = 0 := by linarith
      intro a ha
      rcases List.mem_cons.mp ha with rfl | ha
      · exact hb0
      · exact ih (fun a ha => h a (List.mem_cons_of_mem _ ha)) hls a ha

/-- Zero squared-deviation sum forces the list to be constant at its mean. -/
lemma constant_of_sqDevSum_eq_zero {x : List ℚ} (h : sqDevSum x = 0) :
    ∀ a ∈ x, a = meanQ x := by
  intro a ha
  have hz : ((x.map (fun a => (a - meanQ x) ^ 2))).sum = 0 := h
  have := list_sum_nonneg_eq_zero
    (fun t ht => by
      obtain ⟨b, -, rfl⟩ := List.mem_map.mp ht
      exact sq_nonneg _) hz ((a - meanQ x) ^ 2)
    (List.mem_map.mpr ⟨a, ha, rfl⟩)
  have := pow_eq_zero_iff (n := 2) (by norm_num) |>.mp this
  linarith [sub_eq_zero.mp this]

lemma sqDevSum_ne_zero_of_nonconstant {x : List ℚ}
    (h : ∃ a ∈ x, ∃ b ∈ x, a ≠ b) : sqDevSum x ≠ 0 := by
  obtain ⟨a, ha, b, hb, hab⟩ := h
  intro h0
  have hca := constant_of_sqDevSum_eq_zero h0 a ha
  have hcb := constant_of_sqDevSum_eq_zero h0 b hb
  exact hab (hca.trans hcb.symm)

/-- Self-correlation `pearson x x = 1` as soon as the variance of `x` is nonzero. -/
lemma pearson_self_of_sqDevSum_ne_zero {x : List ℚ} (h : sqDevSum x ≠ 0) :
    pearson x x = 1 := by
  rw [pearson_eq, if_neg (by push_neg; exact ⟨h, h⟩), pearsonNum_self]
  have h0 : (0 : ℝ) ≤ (sqDevSum x : ℝ) := by exact_mod_cast sqDevSum_nonneg x
  rw [Real.mul_self_sqrt h0]
  exact div_self (by exact_mod_cast h)

end PearsonLemmas

/-- C5: `pearson` is symmetric, `pearson x x = 1` for every non-constant `x`,
and consequently the heatmap's correlation matrix is symmetric with diagonal
entries equal to `1.0` whenever the field's variance is nonzero. -/
theorem pearson_symm_self_matrix :
    (∀ x y : List ℚ, pearson x y = pearson y x) ∧
    (∀ x : List ℚ, (∃ a ∈ x, ∃ b ∈ x, a ≠ b) → pearson x x = 1) ∧
    (∀ (rows : List Record) (a b : String),
      corrMatrixEntry rows a b = corrMatrixEntry rows b a) ∧
    (∀ (rows : List Record), ∀ f ∈ heatmapFields,
      sqDevSum (rows.map (fun r => fieldValue r f)) ≠ 0 →
        corrMatrixEntry rows f f = 1) := by
  refine ⟨pearson_symm, ?_, ?_, ?_⟩
  · intro x hx
    exact pearson_self_of_sqDevSum_ne_zero (sqDevSum_ne_zero_of_nonconstant hx)
  · intro rows a b
    exact pearson_symm _ _
  · intro rows f hf hvar
    exact pearson_self_of_sqDevSum_ne_zero hvar

/-- Witness for C5: symmetry at `[1,2]`/`[3,5]`, self-correlation of the
non-constant `[1,2]`, and the diagonal heatmap entry for `Attendance` over
the demo rows. -/
theorem pearson_symm_self_matrix_witness :
    pearson [(1 : ℚ), 2] [(3 : ℚ), 5] = pearson [(3 : ℚ), 5] [(1 : ℚ), 2] ∧
    pearson [(1 : ℚ), 2] [(1 : ℚ), 2] = 1 ∧
    corrMatrixEntry demoRows "Attendance" "Attendance" = 1 := by
  obtain ⟨h1, h2, h3, h4⟩ := pearson_symm_self_matrix
  refine ⟨h1 _ _, h2 _ ⟨1, by decide, 2, by decide, by decide⟩, ?_⟩
  apply h4 demoRows "Attendance" (by decide)
  norm_num [demoRows, fieldValue, sqDevSum, meanQ]

lemma sum_map_filter_add (l : List Record) (p : Record → Bool)
    (f : Record → ℚ) :
    ((l.filter p).map f).sum + ((l.filter (fun a => !(p a))).map f).sum =
      (l.map f).sum := by
  induction l with
  | nil => simp
  | cons a l ih =>
      by_cases h : p a
      · simp [List.filter_cons, h]
        rw [← ih]
        ring
      · simp [List.filter_cons, h]
        rw [← ih]
        ring

/-- Summing a field over the gender groups of a covering, duplicate-free
label list recovers the sum over all rows. -/
lemma sum_groupRows_partition (rows : List Record) (f : Record → ℚ)
    (labels : List String) (hnd : labels.Nodup)
    (hcov : ∀ r ∈ rows, r.gender ∈ labels) :
    (labels.map (fun g => ((groupRows rows g).map f).sum)).sum =
      (rows.map f).sum := by
  induction labels generalizing rows with
  | nil =>
      have : rows = [] := by
        apply List.eq_nil_iff_forall_not_mem.mpr
        intro r hr
        simpa using hcov r hr
      simp [this]
  | cons g0 labels ih =>
      have hnd' : labels.Nodup := (List.nodup_cons.mp hnd).2
      have hg0 : g0 ∉ labels := (List.nodup_cons.mp hnd).1
      rw [List.map_cons, List.sum_cons]
      have hrest : ∀ g ∈ labels,
          groupRows rows g =
            groupRows (rows.filter (fun r => !(r.gender == g0))) g := by
        intro g hg
        rw [groupRows, groupRows, List.filter_filter]
        apply List.filter_congr
        intro r hr
        have hgne : g ≠ g0 := fun hc => hg0 (hc ▸ hg)
        by_cases h : r.gender = g
        · simp [h, hgne]
        · simp [h]
      have hmap : labels.map (fun g => ((groupRows rows g).map f).sum) =
          labels.map (fun g =>
            ((groupRows (rows.filter (fun r => !(r.gender == g0))) g).map f).sum) := by
        apply List.map_congr_left
        intro g hg
        rw [hrest g hg]
      rw [hmap, ih _ hnd' ?cov]
      case cov =>
        intro r hr
        have hmem := List.mem_filter.mp hr
        have := hcov r hmem.1
        rcases List.mem_cons.mp this with hc | hc
        · exfalso
          have : ¬(r.gender == g0) := by simpa using hmem.2
          exact this (by simp [hc])
        · exact hc
      rw [groupRows]
      exact sum_map_filter_add rows _ f

/-- C6: the sum over the groups of a covering, duplicate-free, nonempty
partition of (group size × group mean) equals the sum of the field over the
whole dataset. -/
theorem grouped_mean_total (rows : List Record) (s : String)
    (labels : List String) (hnd : labels.Nodup)
    (hcov : ∀ r ∈ rows, r.gender ∈ labels)
    (hne : ∀ g ∈ labels, groupRows rows g ≠ []) :
    (labels.map
        (fun g => ((groupRows rows g).length : ℚ) * groupMean rows g s)).sum =
      (rows.map (fun r => fieldValue r s)).sum := by
  have hterm : ∀ g ∈ labels,
      ((groupRows rows g).length : ℚ) * groupMean rows g s =
        ((groupRows rows g).map (fun r => fieldValue r s)).sum := by
    intro g hg
    rw [groupMean, meanQ, List.length_map]
    have h0 : ((groupRows rows g).length : ℚ) ≠ 0 := by
      have : (groupRows rows g).length ≠ 0 :=
        fun h => hne g hg (List.length_eq_zero.mp h)
      exact_mod_cast this
    rw [mul_comm, div_mul_cancel₀ _ h0]
  rw [List.map_congr_left hterm]
  exact sum_groupRows_partition rows _ labels hnd hcov

/-- Witness for C6 over the three demo rows, Math column, labels
`["Female", "Male"]`. -/
theorem grouped_mean_total_witness :
    (genders.map (fun g =>
        ((groupRows demoRows3 g).length : ℚ) * groupMean demoRows3 g "Math")).sum =
      (demoRows3.map (fun r => fieldValue r "Math")).sum :=
  grouped_mean_total demoRows3 "Math" genders (by decide) (by decide)
    (by decide)

lemma subjectMeans_none {rows : List Record} {g : String}
    (h : groupRows rows g = []) :
    optionMapList (fun subject =>
      (statisticsMean ((groupRows rows g).map
        (fun r => fieldValue r subject))).map (fun m => (subject, m)))
      SUBJECT_COLUMNS = none := by
  rw [SUBJECT_COLUMNS, h]
  simp [optionMapList, statisticsMean]

lemma optionMapList_none_of_mem {α β : Type} {f : α → Option β} {l : List α}
    {a : α} (ha : a ∈ l) (hfa : f a = none) : optionMapList f l = none := by
  induction l with
  | nil => cases ha
  | cons b l ih =>
      rcases List.mem_cons.mp ha with rfl | ha
      · simp [optionMapList, hfa]
      · cases hfb : f b
        · simp [optionMapList, hfb]
        · simp [optionMapList, hfb, ih ha]

/-- C7: if the dataset has zero rows for one of the fixed group labels
`"Female"`/`"Male"`, the grouped-average computation fails (mean of an
empty sequence) instead of producing a value for that group. -/
theorem grouped_average_empty_group_fails (rows : List Record)
    (h : groupRows rows "Female" = [] ∨ groupRows rows "Male" = []) :
    averagesE rows = none := by
  rw [averagesE]
  rcases h with h | h
  · apply optionMapList_none_of_mem (show "Female" ∈ genders by decide)
    simp [subjectMeans_none h]
  · apply optionMapList_none_of_mem (show "Male" ∈ genders by decide)
    simp [subjectMeans_none h]

/-- Witness for C7: a dataset with a single male student has no rows for
`"Female"`, so the computation fails. -/
theorem grouped_average_empty_group_fails_witness :
    averagesE [⟨"S2", "Male", 85, 70, 60, 50, 40⟩] = none :=
  grouped_average_empty_group_fails [⟨"S2", "Male", 85, 70, 60, 50, 40⟩]
    (Or.inl (by decide))

lemma box_stats_demo :
    box_stats [(50 : ℚ), 60, 70, 80, 90] =
      ⟨50, 60, 70, 80, 90⟩ := by
  have hsort : sortList [(50 : ℚ), 60, 70, 80, 90] = [50, 60, 70, 80, 90] := by
    decide
  rw [box_stats, hsort]
  have hrank : ∀ q : ℚ, rank [(50 : ℚ), 60, 70, 80, 90] q = 4 * q := by
    intro q; rw [rank]; norm_num
  have h1 : quantile [(50 : ℚ), 60, 70, 80, 90] (1/4) = 60 := by
    have h : rank [(50 : ℚ), 60, 70, 80, 90] (1/4) = ((1 : ℤ) : ℚ) := by
      rw [hrank]; norm_num
    rw [quantile_of_int (by rw [h, Int.floor_intCast, Int.ceil_intCast]), h,
      Int.floor_intCast]
    rfl
  have h2 : quantile [(50 : ℚ), 60, 70, 80, 90] (1/2) = 70 := by
    have h : rank [(50 : ℚ), 60, 70, 80, 90] (1/2) = ((2 : ℤ) : ℚ) := by
      rw [hrank]; norm_num
    rw [quantile_of_int (by rw [h, Int.floor_intCast, Int.ceil_intCast]), h,
      Int.floor_intCast]
    rfl
  have h3 : quantile [(50 : ℚ), 60, 70, 80, 90] (3/4) = 80 := by
    have h : rank [(50 : ℚ), 60, 70, 80, 90] (3/4) = ((3 : ℤ) : ℚ) := by
      rw [hrank]; norm_num
    rw [quantile_of_int (by rw [h, Int.floor_intCast, Int.ceil_intCast]), h,
      Int.floor_intCast]
    rfl
  rw [h1, h2, h3]
  rfl

/-- Counterexample to C8 as stated: over the column `[50, 60, 70, 80, 90]`
(min 50, Q1 60, median 70, Q3 80, max 90) the glyph contains no vertical
whisker segment with endpoints at min and Q3 (in either orientation) and
none with endpoints at Q1 and max; the whiskers actually emitted run from
max to Q3 and from Q1 to min. -/
theorem boxGlyph_whisker_counterexample :
    (SVGElem.line 200 (y_scale 50) 200 (y_scale 80) 1 ∉
        boxGlyph (box_stats [(50 : ℚ), 60, 70, 80, 90]) 200 "#6baed6" "Math") ∧
    (SVGElem.line 200 (y_scale 80) 200 (y_scale 50) 1 ∉
        boxGlyph (box_stats [(50 : ℚ), 60, 70, 80, 90]) 200 "#6baed6" "Math") ∧
    (SVGElem.line 200 (y_scale 60) 200 (y_scale 90) 1 ∉
        boxGlyph (box_stats [(50 : ℚ), 60, 70, 80, 90]) 200 "#6baed6" "Math") ∧
    (SVGElem.line 200 (y_scale 90) 200 (y_scale 60) 1 ∉
        boxGlyph (box_stats [(50 : ℚ), 60, 70, 80, 90]) 200 "#6baed6" "Math") ∧
    (SVGElem.line 200 (y_scale 90) 200 (y_scale 80) 1 ∈
        boxGlyph (box_stats [(50 : ℚ), 60, 70, 80, 90]) 200 "#6baed6" "Math") ∧
    (SVGElem.line 200 (y_scale 60) 200 (y_scale 50) 1 ∈
        boxGlyph (box_stats [(50 : ℚ), 60, 70, 80, 90]) 200 "#6baed6" "Math") := by
  rw [box_stats_demo]
  refine ⟨?_, ?_, ?_, ?_, ?_, ?_⟩ <;>
    norm_num [boxGlyph, y_scale]
  all_goals
    exact ⟨fun h => SVGElem.noConfusion h, fun h => SVGElem.noConfusion h⟩

/-- C8 (amended): for each subject the box-plot composer emits exactly
these primitives for the box glyph: a vertical whisker segment from max
down to Q3 and a vertical whisker segment from Q1 down to min (split around
the box), a filled rectangle spanning Q1–Q3 (height floored at one pixel),
a median line, horizontal cap ticks at min and max, and the subject label. -/
theorem boxGlyph_primitives (stats : BoxStats) (xc : ℚ) (c s : String) :
    boxGlyph stats xc c s =
      [SVGElem.line xc (y_scale stats.max) xc (y_scale stats.q3) 1,
       SVGElem.line xc (y_scale stats.q1) xc (y_scale stats.min) 1,
       SVGElem.rect (xc - 40) (y_scale stats.q3) 80
         (max 1 (y_scale stats.q1 - y_scale stats.q3)) c,
       SVGElem.line (xc - 40) (y_scale stats.median)
         (xc + 40) (y_scale stats.median) 2,
       SVGElem.line (xc - 20) (y_scale stats.max)
         (xc + 20) (y_scale stats.max) 1,
       SVGElem.line (xc - 20) (y_scale stats.min)
         (xc + 20) (y_scale stats.min) 1,
       SVGElem.text xc 480 s] := by
  norm_num [boxGlyph]

/-- C9: `box_stats` does not mutate its input: after the call, the caller's
cell holds the same elements in the same order, and the returned statistics
are those of the pure `box_stats` on the original list (sorting happened
only on the internal copy). -/
theorem box_stats_no_mutation (heap : List (List ℚ)) (r : ℕ)
    (hr : r < heap.length) :
    (box_statsH heap r).1.getD r [] = heap.getD r [] ∧
    (box_statsH heap r).2 = box_stats (heap.getD r []) := by
  have hfresh : (heap ++ [sortList (heap.getD r [])]).getD heap.length [] =
      sortList (heap.getD r []) := by
    rw [List.getD_append_right _ _ _ _ (le_refl _), Nat.sub_self]
    rfl
  constructor
  · rw [box_statsH]
    exact List.getD_append _ _ _ _ hr
  · rw [box_statsH, box_stats]
    simp only [sortedAlloc, hfresh]

/-- Witness for C9: a heap holding the single list `[3, 1, 2]`. -/
theorem box_stats_no_mutation_witness :
    (box_statsH [[(3 : ℚ), 1, 2]] 0).1.getD 0 [] = [(3 : ℚ), 1, 2] ∧
    (box_statsH [[(3 : ℚ), 1, 2]] 0).2 = box_stats [(3 : ℚ), 1, 2] := by
  simpa using box_stats_no_mutation [[(3 : ℚ), 1, 2]] 0 (by decide)

/-- C10: `pearson` accepts sequences of unequal lengths without failing;
the means are taken over the full sequences while `zip` truncates the
cross-product sum, so the result can differ from the Pearson coefficient of
the common-length prefixes.  Concretely, for `x = [0, 2, 100]` and
`y = [0, 2]` the prefix coefficient is exactly `1` while the unequal-length
call returns a value strictly below `1`. -/
theorem pearson_unequal_length_divergence :
    ([(0 : ℚ), 2, 100].length ≠ [(0 : ℚ), 2].length) ∧
    pearson ([(0 : ℚ), 2, 100].take 2) ([(0 : ℚ), 2].take 2) = 1 ∧
    pearson [(0 : ℚ), 2, 100] [(0 : ℚ), 2] < 1 := by
  refine ⟨by decide, ?_, ?_⟩
  · show pearson [(0 : ℚ), 2] [(0 : ℚ), 2] = 1
    exact pearson_self_of_sqDevSum_ne_zero (by norm_num [sqDevSum, meanQ])
  · rw [pearson_eq,
      if_neg (by push_neg; constructor <;> norm_num [sqDevSum, meanQ])]
    have hnum : pearsonNum [(0 : ℚ), 2, 100] [(0 : ℚ), 2] = 2 := by
      norm_num [pearsonNum, meanQ]
    have hsx : sqDevSum [(0 : ℚ), 2, 100] = 6536 := by
      norm_num [sqDevSum, meanQ]
    have hsy : sqDevSum [(0 : ℚ), 2] = 2 := by
      norm_num [sqDevSum, meanQ]
    rw [hnum, hsx, hsy]
    have hD : (2 : ℝ) < Real.sqrt ((6536 : ℚ) : ℝ) * Real.sqrt ((2 : ℚ) : ℝ) := by
      rw [← Real.sqrt_mul (by norm_num)]
      rw [show (((6536 : ℚ) : ℝ) * ((2 : ℚ) : ℝ)) = ((13072 : ℝ)) by push_cast; norm_num]
      rw [Real.lt_sqrt (by norm_num)]
      norm_num
    have h2 : (0 : ℝ) < 2 := by norm_num
    calc (((2 : ℚ) : ℝ)) / (Real.sqrt ((6536 : ℚ) : ℝ) * Real.sqrt ((2 : ℚ) : ℝ))
        < (((2 : ℚ) : ℝ)) / 2 := by
          apply div_lt_div_of_pos_left (by push_cast; norm_num) h2
          exact_mod_cast hD
      _ = 1 := by push_cast; norm_num

end StudentAnalysis

